import Mathlib

/-!
Verification of the `ai-token-chunker` repository against its specification.

The embedding models JavaScript strings as lists of UTF-16 code units
(`List Nat`), with `String.prototype.slice` / `Buffer.byteLength(·, 'utf8')`
semantics reproduced exactly (including negative-index clamping and
surrogate-pair handling).  Numeric limit fields are `Int`, since the source
never validates them and the spec's claims quantify over negative values too.

The repository contains two divergent copies of the chunking algorithm,
`src/chunker.js` (ESM) and `src/chunker.cjs` (CommonJS).  They differ in
exactly two places, both marked below; the embedding is parametric in a
`strict : Bool` flag, `true` giving the ESM variant and `false` the CJS
variant.  Loops are modelled with an explicit fuel parameter so that every
definition is structurally recursive and executable; a run that exhausts its
fuel returns `none`, a thrown error returns `some (.error e)`, and a normal
return gives `some (.ok chunks)`.
-/

namespace TokenChunker

/-- UTF-16 code units matched by the JavaScript regex `\s`.
`0` (used as the out-of-range placeholder) is not whitespace, matching
`/\s/.test(undefined) = false` for an out-of-bounds `text[i]`. -/
def isWs (c : Nat) : Bool :=
  c = 0x20 || c = 0x09 || c = 0x0A || c = 0x0B || c = 0x0C || c = 0x0D ||
  c = 0xA0 || c = 0x1680 || (0x2000 ≤ c && c ≤ 0x200A) ||
  c = 0x2028 || c = 0x2029 || c = 0x202F || c = 0x205F || c = 0x3000 || c = 0xFEFF

/-- The sentence terminators `.`, `!`, `?` of the regex `[.!?]`. -/
def isPunct (c : Nat) : Bool :=
  c = 0x2E || c = 0x21 || c = 0x3F

/-- Clamp an index the way `String.prototype.slice` does: negative indices
count from the end, and everything is clamped into `[0, len]`. -/
def jsClamp (len : Nat) (i : Int) : Nat :=
  (if i < 0 then max ((len : Int) + i) 0 else min i (len : Int)).toNat

/-- `s.slice(a, b)` on a list of code units. -/
def jsSlice (xs : List Nat) (a b : Int) : List Nat :=
  (xs.take (jsClamp xs.length b)).drop (jsClamp xs.length a)

/-- `s.slice(a)` on a list of code units. -/
def jsSliceFrom (xs : List Nat) (a : Int) : List Nat :=
  xs.drop (jsClamp xs.length a)

/-- `s[i]` as used under `/\s/.test(text[i])`: the code unit at `i`, or `0`
(for which `isWs` is false) when the index is out of range. -/
def charAt (xs : List Nat) (i : Int) : Nat :=
  if i < 0 then 0 else xs.getD i.toNat 0

/-- `Buffer.byteLength(text, 'utf8')` over UTF-16 code units: 1 byte below
U+0080, 2 below U+0800, 3 otherwise, except that a high surrogate followed by
a low surrogate encodes as a single 4-byte code point and an unpaired
surrogate is encoded as the 3-byte replacement character (Node semantics). -/
def utf8Len : List Nat → Nat
  | [] => 0
  | u :: rest =>
    if u < 0x80 then 1 + utf8Len rest
    else if u < 0x800 then 2 + utf8Len rest
    else if 0xD800 ≤ u && u ≤ 0xDBFF then
      match rest with
      | [] => 3
      | v :: rest2 =>
        if 0xDC00 ≤ v && v ≤ 0xDFFF then 4 + utf8Len rest2
        else 3 + utf8Len (v :: rest2)
    else 3 + utf8Len rest

/-- `getTextByteSize` from `src/limits.js` / `src/limits.cjs` (the falsy
guard returns 0 for the empty string, which `utf8Len` already does). -/
def getTextByteSize (text : List Nat) : Nat := utf8Len text

/-- `estimateTokens` from `src/limits.js` / `src/limits.cjs`:
`Math.ceil(text.length / 4)`, with 0 for the empty string. -/
def estimateTokens (text : List Nat) : Nat := (text.length + 3) / 4

/-- A normalized image as consumed by the chunker: only its byte size is
read (`img.size`). -/
structure NImage where
  size : Nat
  deriving DecidableEq, Repr

/-- `getImagesByteSize` from `src/image.cjs`: sum of the `size` fields. -/
def getImagesByteSize (images : List NImage) : Nat :=
  images.foldl (fun total img => total + img.size) 0

/-- The provider `Limits` record.  Fields are `Int` because the source never
validates them and claims quantify over negative values. -/
structure Limits where
  maxTokens : Int
  maxChars : Int
  maxBytes : Int
  maxImages : Int
  imageByteLimit : Int
  deriving DecidableEq, Repr

/-- `ChunkOptions` (`provider`/`model` are only echoed into error messages
and are omitted). -/
structure ChunkOptions where
  chunkOverlap : Int := 0
  respectWordBoundaries : Bool := true
  deriving DecidableEq, Repr

/-- A produced chunk `{text, images, index}`. -/
structure Chunk where
  text : List Nat
  images : List NImage
  index : Nat
  deriving DecidableEq, Repr

/-- The dimension named by the `limit` field of a `LimitExceededError`. -/
inductive Dim
  | maxBytes | maxChars | maxTokens
  deriving DecidableEq, Repr

/-- Errors thrown by `chunkInput`: `InvalidInputError`, or
`LimitExceededError {limit, actual, allowed}`. -/
inductive ChunkErr
  | invalidInput
  | limit (d : Dim) (actual allowed : Int)
  deriving DecidableEq, Repr

/-- Containment test for the regex `/[.!?]\s/` on a short window: some
position holds a sentence terminator immediately followed by whitespace. -/
def hasPunctWs : List Nat → Bool
  | a :: b :: rest => (isPunct a && isWs b) || hasPunctWs (b :: rest)
  | _ => false

/-- The first backward scan of `findSplitPoint`
(`for (let i = sentenceEnd; i > lo; i--)` testing
`/[.!?]\s/.test(text.slice(i - 2, i + 1))`), with the iteration count
`(sentenceEnd - lo).toNat` passed explicitly so the recursion is structural. -/
def scanPunct (text : List Nat) : Nat → Int → Option Int
  | 0, _ => none
  | n + 1, i =>
    if hasPunctWs (jsSlice text (i - 2) (i + 1)) then some i
    else scanPunct text n (i - 1)

/-- The second backward scan of `findSplitPoint`
(`for (let i = sentenceEnd; i > lo; i--)` testing `/\s/.test(text[i])`,
returning `i + 1`). -/
def scanWs (text : List Nat) : Nat → Int → Option Int
  | 0, _ => none
  | n + 1, i =>
    if isWs (charAt text i) then some (i + 1)
    else scanWs text n (i - 1)

/-- `findSplitPoint(text, maxLength)` from `src/chunker.js` /
`src/chunker.cjs` (the two copies are identical): sentence boundary within
200 characters, else word boundary within 100, else `maxLength`. -/
def findSplitPoint (text : List Nat) (maxLength : Int) : Int :=
  if maxLength ≥ (text.length : Int) then text.length
  else
    let sentenceEnd : Int := min maxLength (text.length : Int)
    match scanPunct text (sentenceEnd - max 0 (sentenceEnd - 200)).toNat sentenceEnd with
    | some i => i
    | none =>
      match scanWs text (sentenceEnd - max 0 (sentenceEnd - 100)).toNat sentenceEnd with
      | some i => i
      | none => maxLength

/-- The binary search of the exact-byte correction
(`while (low < high) { mid = ...; if (bytes(slice(0,mid)) + imageBytes <= max)
low = mid+1 else high = mid }`), returning the final `low`.  The interval
width strictly decreases every iteration, so the explicit fuel
`high - low` passed at the call site is always sufficient and the function
computes exactly the JavaScript loop's result. -/
def bsearchLow (chunkText : List Nat) (chunkImageBytes maxChunkBytes : Int) :
    Nat → Nat → Nat → Nat
  | 0, low, _ => low
  | n + 1, low, high =>
    if low < high then
      let mid := (low + high) / 2
      if (utf8Len (chunkText.take mid) : Int) + chunkImageBytes ≤ maxChunkBytes then
        bsearchLow chunkText chunkImageBytes maxChunkBytes n (mid + 1) high
      else
        bsearchLow chunkText chunkImageBytes maxChunkBytes n low mid
    else low

/-- Boundary selection of one loop iteration: the whole remaining text when
it fits the target, else `findSplitPoint` under word-boundary preference,
else the target itself. -/
def boundarySplit (opts : ChunkOptions) (remainingText : List Nat)
    (targetChars : Int) : Int :=
  if (remainingText.length : Int) ≤ targetChars then remainingText.length
  else if opts.respectWordBoundaries then findSplitPoint remainingText targetChars
  else targetChars

/-- Exact-byte verification of one loop iteration: when the candidate chunk
text's bytes plus the chunk's image bytes exceed the byte budget, binary
search for the largest fitting prefix (`splitPoint = Math.max(0, low - 1)`);
otherwise keep the split point. -/
def byteCorrect (remainingText : List Nat) (splitPoint0 chunkImageBytes
    maxChunkBytes : Int) : Int :=
  let chunkText0 := jsSlice remainingText 0 splitPoint0
  let totalChunkBytes := (getTextByteSize chunkText0 : Int) + chunkImageBytes
  if totalChunkBytes > maxChunkBytes then
    max 0 ((bsearchLow chunkText0 chunkImageBytes maxChunkBytes
      chunkText0.length 0 chunkText0.length : Int) - 1)
  else splitPoint0

/-- Token correction of one loop iteration: when the estimated tokens exceed
`maxTokens` and the text is longer than `maxTokens * 4` characters, cap the
split point at `maxTokens * 4` (the source's nested `if`s, written as a
conjunction). -/
def tokenCorrect (limits : Limits) (remainingText : List Nat)
    (splitPoint1 : Int) : Int :=
  let chunkText1 := jsSlice remainingText 0 splitPoint1
  let maxCharsByTokens := limits.maxTokens * 4
  if (estimateTokens chunkText1 : Int) > limits.maxTokens ∧
      (chunkText1.length : Int) > maxCharsByTokens
  then min splitPoint1 maxCharsByTokens else splitPoint1

/-- One iteration of the `while (currentIndex < text.length)` loop of
`chunkInput`, for a cursor strictly below the text length.  Returns the
produced chunk together with the final `splitPoint` of the iteration and the
next cursor, or the thrown `LimitExceededError`.  `strict = true` is
`src/chunker.js`, which additionally contains the single-unit-overflow guard
(marked (A) below); `strict = false` is `src/chunker.cjs`.  The two variants
also differ in which byte count the zero-progress error reports (marked (B)).
The source reassigns `chunkText = remainingText.slice(0, splitPoint)` after
each correction of `splitPoint`; the model equivalently slices once from the
final split point of each phase.  In the source the zero-progress throw
happens after the chunk is pushed, but a throw discards the pushed chunks,
so returning the error directly is observationally identical. -/
def chunkStep (strict : Bool) (text : List Nat) (images : List NImage)
    (limits : Limits) (opts : ChunkOptions)
    (imageBytes availableBytesForText availableCharsForText : Int)
    (cursor : Int) (chunkIdx : Nat) : Except ChunkErr (Chunk × Int × Int) :=
  let remainingText := jsSliceFrom text cursor
  let remainingBytes : Int := getTextByteSize remainingText
  let remainingBytesWithImages :=
    remainingBytes + (if chunkIdx = 0 then imageBytes else 0)
  if remainingBytesWithImages > limits.maxBytes ∧ remainingText.length ≤ 1 then
    .error (.limit .maxBytes remainingBytesWithImages limits.maxBytes)
  else if (remainingText.length : Int) > limits.maxChars ∧ remainingText.length ≤ 1 then
    .error (.limit .maxChars remainingText.length limits.maxChars)
  else
    let maxChunkBytes := if chunkIdx = 0 then availableBytesForText else limits.maxBytes
    let maxChunkChars := if chunkIdx = 0 then availableCharsForText else limits.maxChars
    let estimatedMaxChars := Int.fdiv maxChunkBytes 2
    let targetChars := min maxChunkChars estimatedMaxChars
    let splitPoint0 := boundarySplit opts remainingText targetChars
    let chunkText0 := jsSlice remainingText 0 splitPoint0
    let chunkBytes : Int := getTextByteSize chunkText0
    -- (A) single-unit-overflow guard, present only in src/chunker.js
    if strict ∧ ((chunkText0.length : Int) > limits.maxChars ∨ chunkBytes > maxChunkBytes) then
      .error (.limit (if chunkBytes > maxChunkBytes then .maxBytes else .maxChars)
        (max (chunkText0.length : Int) chunkBytes)
        (min limits.maxChars maxChunkBytes))
    else
      let chunkImageBytes := if chunkIdx = 0 then imageBytes else 0
      let totalChunkBytes := chunkBytes + chunkImageBytes
      let splitPoint1 := byteCorrect remainingText splitPoint0 chunkImageBytes maxChunkBytes
      let splitPoint2 := tokenCorrect limits remainingText splitPoint1
      let chunkText2 := jsSlice remainingText 0 splitPoint2
      let cursor1 := cursor + splitPoint2
      let cursor2 :=
        if opts.chunkOverlap > 0 ∧ cursor1 < (text.length : Int)
        then max 0 (cursor1 - opts.chunkOverlap) else cursor1
      if splitPoint2 = 0 then
        -- (B) src/chunker.js reports the pre-truncation byte total,
        -- src/chunker.cjs recomputes it from the final chunk text
        .error (.limit .maxBytes
          (if strict then totalChunkBytes
           else (getTextByteSize chunkText2 : Int) + chunkImageBytes)
          maxChunkBytes)
      else
        .ok (⟨chunkText2, if chunkIdx = 0 then images else [], chunkIdx⟩,
          splitPoint2, cursor2)

/-- The `while` loop of `chunkInput`, with explicit fuel. -/
def chunkLoop (strict : Bool) (text : List Nat) (images : List NImage)
    (limits : Limits) (opts : ChunkOptions)
    (imageBytes availableBytesForText availableCharsForText : Int) :
    Nat → Int → Nat → List Chunk → Option (Except ChunkErr (List Chunk))
  | 0, _, _, _ => none
  | fuel + 1, cursor, chunkIdx, acc =>
    if cursor < (text.length : Int) then
      match chunkStep strict text images limits opts
        imageBytes availableBytesForText availableCharsForText cursor chunkIdx with
      | .error e => some (.error e)
      | .ok (chunk, _, cursor2) =>
        chunkLoop strict text images limits opts
          imageBytes availableBytesForText availableCharsForText
          fuel cursor2 (chunkIdx + 1) (acc ++ [chunk])
    else some (.ok acc)

/-- `chunkInput(text, images, limits, options)` from `src/chunker.js`
(`strict = true`) and `src/chunker.cjs` (`strict = false`).  A non-string
input is not representable in the typed embedding; the falsy check `!text`
rejects exactly the empty string.  `getTextByteSize('A') = 1`. -/
def chunkInput (strict : Bool) (fuel : Nat) (text : List Nat)
    (images : List NImage) (limits : Limits) (opts : ChunkOptions) :
    Option (Except ChunkErr (List Chunk)) :=
  if text.length = 0 then some (.error .invalidInput)
  else
    let imageBytes : Int := getImagesByteSize images
    let availableBytesForText := limits.maxBytes - imageBytes
    let availableCharsForText :=
      min limits.maxChars (Int.fdiv availableBytesForText 2)
    let singleCharWithImages : Int := 1 + imageBytes
    if singleCharWithImages > limits.maxBytes then
      some (.error (.limit .maxBytes singleCharWithImages limits.maxBytes))
    else if 1 > limits.maxChars then
      some (.error (.limit .maxChars 1 limits.maxChars))
    else
      chunkLoop strict text images limits opts
        imageBytes availableBytesForText availableCharsForText fuel 0 0 []

/-- Concatenation of the chunk texts in index order. -/
def concatTexts (chunks : List Chunk) : List Nat :=
  (chunks.map Chunk.text).flatten

/-- Result of `checkFits` from `src/limits.js` / `src/limits.cjs`:
`{fits: true}` or `{fits: false, reason, details: {actual, allowed}}`. -/
inductive FitResult
  | fits
  | notFits (reason : Dim) (actual allowed : Int)
  deriving DecidableEq, Repr

/-- `checkFits(text, images, limits)` from `src/limits.js` /
`src/limits.cjs` (the two copies are identical). -/
def checkFits (text : List Nat) (images : List NImage) (limits : Limits) :
    FitResult :=
  let textBytes : Int := getTextByteSize text
  let imageBytes : Int := getImagesByteSize images
  let totalBytes := textBytes + imageBytes
  let estimatedTokens : Int := estimateTokens text
  if totalBytes > limits.maxBytes then
    .notFits .maxBytes totalBytes limits.maxBytes
  else if (text.length : Int) > limits.maxChars then
    .notFits .maxChars text.length limits.maxChars
  else if estimatedTokens > limits.maxTokens then
    .notFits .maxTokens estimatedTokens limits.maxTokens
  else .fits

/-! ### Image normalization (`src/image.cjs`, and the ESM copy embedded in
`src/chunker.js`'s module group) -/

/-- Raw image representations accepted by `normalizeImage`: a `Buffer`, a
string (of UTF-16 code units), or an object `{buffer, mime}`. -/
inductive RawImage
  | buf (bytes : List Nat)
  | str (chars : List Nat)
  | obj (buffer : List Nat) (mime : Option (List Nat))
  deriving DecidableEq, Repr

/-- A normalized image `{buffer, mime, size}` as produced by
`normalizeImage` (the mime type is a list of character codes). -/
structure NormImage where
  buffer : List Nat
  mime : List Nat
  size : Nat
  deriving DecidableEq, Repr

/-- The character codes of `"data:image/"`. -/
def dataUrlLit : List Nat := [100, 97, 116, 97, 58, 105, 109, 97, 103, 101, 47]

/-- The character codes of `"image/png"`, the default mime type. -/
def pngMime : List Nat := [105, 109, 97, 103, 101, 47, 112, 110, 103]

/-- The character codes of `"image/"`. -/
def imageSlash : List Nat := [105, 109, 97, 103, 101, 47]

/-- The character codes of `";base64"`. -/
def semiBase64 : List Nat := [59, 98, 97, 115, 101, 54, 52]

/-- `s.startsWith(lit)` on code-unit lists. -/
def startsWithLit : List Nat → List Nat → Bool
  | _, [] => true
  | [], _ :: _ => false
  | a :: as, b :: bs => a = b && startsWithLit as bs

/-- `s.indexOf(c)` on code-unit lists (`none` for `-1`). -/
def jsIndexOf (s : List Nat) (c : Nat) : Option Nat :=
  match s with
  | [] => none
  | a :: rest => if a = c then some 0 else (jsIndexOf rest c).map (· + 1)

/-- Decode one base64 character to its 6-bit value; `none` for characters
outside the alphabet (Node's decoder skips them). -/
def b64Val (c : Nat) : Option Nat :=
  if 65 ≤ c ∧ c ≤ 90 then some (c - 65)
  else if 97 ≤ c ∧ c ≤ 122 then some (c - 71)
  else if 48 ≤ c ∧ c ≤ 57 then some (c + 4)
  else if c = 43 then some 62
  else if c = 47 then some 63
  else none

/-- Reassemble 6-bit groups into bytes: 4 → 3 bytes, a trailing 3 → 2 bytes,
a trailing 2 → 1 byte, a lone trailing value → nothing. -/
def b64Groups : List Nat → List Nat
  | a :: b :: c :: d :: rest =>
    (a * 4 + b / 16) :: ((b % 16) * 16 + c / 4) :: ((c % 4) * 64 + d) :: b64Groups rest
  | [a, b, c] => [a * 4 + b / 16, (b % 16) * 16 + c / 4]
  | [a, b] => [a * 4 + b / 16]
  | _ => []

/-- Modelled from the spec: `Buffer.from(s, 'base64')`.  The Node standard
library is not part of the repository; its documented lenient decoder skips
characters outside the base64 alphabet and decodes the rest in 4-character
groups, with a 2- or 3-character tail contributing 1 or 2 bytes. -/
def b64Decode (s : List Nat) : List Nat :=
  b64Groups (s.filterMap b64Val)

/-- The regex match `header.match(/data:image\/([^;]+)/)`: scan positions
left to right; at the first position where the literal `data:image/` matches
and is followed by at least one non-`;` character, capture the maximal run of
non-`;` characters. -/
def mimeCapture : List Nat → Option (List Nat)
  | [] => none
  | a :: rest =>
    if startsWithLit (a :: rest) dataUrlLit then
      let run := ((a :: rest).drop 11).takeWhile (· ≠ 59)
      if run.isEmpty then mimeCapture rest else some run
    else mimeCapture rest

/-- `normalizeImage(image)` from `src/image.cjs`: handles data URLs
(`data:image/<subtype>;base64,<payload>`), plain base64 strings, buffers and
`{buffer, mime}` objects.  `none` models the thrown `Error`. -/
def normalizeImage : RawImage → Option NormImage
  | .buf bytes => some ⟨bytes, pngMime, bytes.length⟩
  | .str chars =>
    if startsWithLit chars dataUrlLit then
      match jsIndexOf chars 44 with
      | none => none
      | some commaIndex =>
        let header := chars.take commaIndex
        let base64Data := chars.drop (commaIndex + 1)
        let mime :=
          match mimeCapture header with
          | some cap => imageSlash ++ cap
          | none => pngMime
        let buffer := b64Decode base64Data
        some ⟨buffer, mime, buffer.length⟩
    else
      let buffer := b64Decode chars
      some ⟨buffer, pngMime, buffer.length⟩
  | .obj buffer mime => some ⟨buffer, mime.getD pngMime, buffer.length⟩

/-- `normalizeImage(image)` from the ESM copy (`src/image.js`): every string
is treated as plain base64 and the mime type stays the default; no data-URL
handling. -/
def normalizeImageEsm : RawImage → Option NormImage
  | .buf bytes => some ⟨bytes, pngMime, bytes.length⟩
  | .str chars =>
    let buffer := b64Decode chars
    some ⟨buffer, pngMime, buffer.length⟩
  | .obj buffer mime => some ⟨buffer, mime.getD pngMime, buffer.length⟩

/-! ### Supporting lemmas -/

/-- Unfolding a successful `chunkInput` run: the text was non-empty, the two
pre-loop guards passed, and the loop returned the chunks. -/
theorem chunkInput_ok_elim {strict : Bool} {fuel : Nat} {text : List Nat}
    {images : List NImage} {limits : Limits} {opts : ChunkOptions}
    {cs : List Chunk}
    (hrun : chunkInput strict fuel text images limits opts = some (.ok cs)) :
    text.length ≠ 0 ∧
    1 + (getImagesByteSize images : Int) ≤ limits.maxBytes ∧
    1 ≤ limits.maxChars ∧
    chunkLoop strict text images limits opts (getImagesByteSize images)
      (limits.maxBytes - (getImagesByteSize images : Int))
      (min limits.maxChars
        (Int.fdiv (limits.maxBytes - (getImagesByteSize images : Int)) 2))
      fuel 0 0 [] = some (.ok cs) := by
  simp only [chunkInput] at hrun
  split at hrun
  · simp at hrun
  next h1 =>
  split at hrun
  · simp at hrun
  next h2 =>
  split at hrun
  · simp at hrun
  next h3 =>
  exact ⟨h1, by omega, by omega, hrun⟩

/-- Every error produced inside the loop is a `LimitExceededError`, never an
`InvalidInputError`. -/
theorem chunkStep_not_invalid {strict : Bool} {text : List Nat}
    {images : List NImage} {limits : Limits} {opts : ChunkOptions}
    {imgB avB avC cursor : Int} {chunkIdx : Nat}
    (h : chunkStep strict text images limits opts imgB avB avC cursor chunkIdx
      = .error ChunkErr.invalidInput) : False := by
  simp only [chunkStep] at h
  repeat' split at h
  all_goals simp at h

/-- The loop never returns an `InvalidInputError`. -/
theorem chunkLoop_not_invalid {strict : Bool} {text : List Nat}
    {images : List NImage} {limits : Limits} {opts : ChunkOptions}
    {imgB avB avC : Int} :
    ∀ (fuel : Nat) (cursor : Int) (chunkIdx : Nat) (acc : List Chunk),
      chunkLoop strict text images limits opts imgB avB avC fuel cursor chunkIdx acc
        ≠ some (.error .invalidInput) := by
  intro fuel
  induction fuel with
  | zero => intro cursor chunkIdx acc h; simp [chunkLoop] at h
  | succ n ih =>
    intro cursor chunkIdx acc h
    rw [chunkLoop] at h
    split at h
    · cases hs : chunkStep strict text images limits opts imgB avB avC cursor chunkIdx with
      | error e =>
        rw [hs] at h
        simp only [Option.some.injEq, Except.error.injEq] at h
        exact chunkStep_not_invalid (h ▸ hs)
      | ok t =>
        obtain ⟨c, sp, c2⟩ := t
        rw [hs] at h
        exact ih c2 (chunkIdx + 1) (acc ++ [c]) h
    · simp at h

theorem jsSliceFrom_eq_drop (xs : List Nat) {a : Int} (h : 0 ≤ a) :
    jsSliceFrom xs a = xs.drop a.toNat := by
  unfold jsSliceFrom jsClamp
  rw [if_neg (by omega)]
  rcases le_or_lt (a.toNat) xs.length with h2 | h2
  · congr 1
    omega
  · rw [List.drop_eq_nil_of_le (by omega), List.drop_eq_nil_of_le (by omega)]

theorem jsSlice_zero_take (xs : List Nat) {b : Int} (h : 0 ≤ b) :
    jsSlice xs 0 b = xs.take b.toNat := by
  unfold jsSlice jsClamp
  rw [if_neg (by omega), if_neg (by omega),
    show ((0 : Int) ⊓ (xs.length : Int)).toNat = 0 by omega, List.drop_zero]
  rcases le_or_lt (b.toNat) xs.length with h2 | h2
  · congr 1
    omega
  · rw [show (b ⊓ (xs.length : Int)).toNat = xs.length by omega,
      List.take_of_length_le (le_refl _), List.take_of_length_le (by omega)]

theorem scanPunct_bounds {t : List Nat} :
    ∀ {n : Nat} {i j : Int}, scanPunct t n i = some j → i - n < j ∧ j ≤ i := by
  intro n
  induction n with
  | zero => intro i j h; simp [scanPunct] at h
  | succ n ih =>
    intro i j h
    rw [scanPunct] at h
    split at h
    · cases h; omega
    · have := ih h; omega

theorem scanWs_bounds {t : List Nat} :
    ∀ {n : Nat} {i j : Int}, scanWs t n i = some j → i + 1 - n ≤ j ∧ j ≤ i + 1 := by
  intro n
  induction n with
  | zero => intro i j h; simp [scanWs] at h
  | succ n ih =>
    intro i j h
    rw [scanWs] at h
    split at h
    · cases h; omega
    · have := ih h; omega

theorem findSplitPoint_bounds (t : List Nat) {m : Int}
    (h0 : 0 ≤ m) (hlt : m < (t.length : Int)) :
    0 ≤ findSplitPoint t m ∧ findSplitPoint t m ≤ (t.length : Int) := by
  unfold findSplitPoint
  rw [if_neg (by omega)]
  have hmin : min m (t.length : Int) = m := min_eq_left (le_of_lt hlt)
  simp only [hmin]
  rcases hp : scanPunct t (m - max 0 (m - 200)).toNat m with _ | i
  · rcases hw : scanWs t (m - max 0 (m - 100)).toNat m with _ | i
    · simp only [hp, hw]
      omega
    · have hb := scanWs_bounds hw
      simp only [hp, hw]
      omega
  · have hb := scanPunct_bounds hp
    simp only [hp]
    omega

theorem bsearchLow_le {c : List Nat} {ib mb : Int} :
    ∀ {n low high : Nat}, low ≤ high → bsearchLow c ib mb n low high ≤ high := by
  intro n
  induction n with
  | zero => intro low high h; simpa [bsearchLow] using h
  | succ n ih =>
    intro low high h
    rw [bsearchLow]
    split
    · dsimp only
      split
      · exact ih (by omega)
      · exact le_trans (ih (by omega)) (by omega)
    · exact h

theorem concatTexts_append (a : List Chunk) (c : Chunk) :
    concatTexts (a ++ [c]) = concatTexts a ++ c.text := by
  simp [concatTexts]

theorem jsSlice_zero_length (xs : List Nat) {b : Int} (h : 0 ≤ b) :
    (jsSlice xs 0 b).length = min b.toNat xs.length := by
  rw [jsSlice_zero_take xs h, List.length_take]

theorem boundarySplit_bounds (opts : ChunkOptions) (rem : List Nat)
    {target : Int} (ht : 0 ≤ target) :
    0 ≤ boundarySplit opts rem target ∧
      boundarySplit opts rem target ≤ (rem.length : Int) := by
  unfold boundarySplit
  split
  · omega
  · next hfit =>
    split
    · exact findSplitPoint_bounds rem ht (by omega)
    · omega

theorem byteCorrect_bounds (rem : List Nat) {sp0 : Int} (cib mcb : Int)
    (h0 : 0 ≤ sp0) (hle : sp0 ≤ (rem.length : Int)) :
    0 ≤ byteCorrect rem sp0 cib mcb ∧
      byteCorrect rem sp0 cib mcb ≤ (rem.length : Int) := by
  unfold byteCorrect
  dsimp only
  split
  · have hlow : bsearchLow (jsSlice rem 0 sp0) cib mcb
        (jsSlice rem 0 sp0).length 0 (jsSlice rem 0 sp0).length ≤
        (jsSlice rem 0 sp0).length := bsearchLow_le (Nat.zero_le _)
    have hlen : (jsSlice rem 0 sp0).length = min sp0.toNat rem.length :=
      jsSlice_zero_length rem h0
    omega
  · exact ⟨h0, hle⟩

theorem tokenCorrect_bounds (limits : Limits) (rem : List Nat) {sp1 : Int}
    (hT : 0 ≤ limits.maxTokens) (h0 : 0 ≤ sp1) (hle : sp1 ≤ (rem.length : Int)) :
    0 ≤ tokenCorrect limits rem sp1 ∧
      tokenCorrect limits rem sp1 ≤ (rem.length : Int) := by
  unfold tokenCorrect
  dsimp only
  split
  · omega
  · exact ⟨h0, hle⟩

theorem tokenCorrect_tokens (limits : Limits) (rem : List Nat) {sp1 : Int}
    (hT : 0 ≤ limits.maxTokens) (h0 : 0 ≤ sp1) :
    (estimateTokens (jsSlice rem 0 (tokenCorrect limits rem sp1)) : Int) ≤
      limits.maxTokens := by
  unfold tokenCorrect
  dsimp only
  split
  · next hcond =>
    have hsp2 : 0 ≤ min sp1 (limits.maxTokens * 4) := by omega
    have hlen : (jsSlice rem 0 (min sp1 (limits.maxTokens * 4))).length =
        min (min sp1 (limits.maxTokens * 4)).toNat rem.length :=
      jsSlice_zero_length rem hsp2
    unfold estimateTokens
    omega
  · next hcond =>
    rw [Classical.not_and_iff_or_not_not] at hcond
    rcases hcond with hcond | hcond
    · omega
    · have hlen : (jsSlice rem 0 sp1).length = min sp1.toNat rem.length :=
        jsSlice_zero_length rem h0
      unfold estimateTokens
      omega

/-- Characterization of a successful loop iteration under non-negative
`maxTokens` and the facts established by the pre-loop guards: the split
point is positive and stays within the remaining text, the chunk text is
exactly the corresponding slice of the input, its token estimate fits
`maxTokens`, and the next cursor follows the overlap rule. -/
theorem chunkStep_ok {strict : Bool} {text : List Nat} {images : List NImage}
    {limits : Limits} {opts : ChunkOptions}
    {imgB avB avC cursor : Int} {chunkIdx : Nat}
    {ch : Chunk} {sp c2 : Int}
    (himg0 : 0 ≤ imgB)
    (havB : avB = limits.maxBytes - imgB)
    (havC : avC = min limits.maxChars (Int.fdiv avB 2))
    (hB : 1 + imgB ≤ limits.maxBytes)
    (hC : 1 ≤ limits.maxChars)
    (hT : 0 ≤ limits.maxTokens)
    (hcur0 : 0 ≤ cursor)
    (hcurlt : cursor < (text.length : Int))
    (hstep : chunkStep strict text images limits opts imgB avB avC cursor chunkIdx
      = .ok (ch, sp, c2)) :
    0 < sp ∧ cursor + sp ≤ (text.length : Int) ∧
    ch.text = (text.drop cursor.toNat).take sp.toNat ∧
    (estimateTokens ch.text : Int) ≤ limits.maxTokens ∧
    c2 = (if opts.chunkOverlap > 0 ∧ cursor + sp < (text.length : Int)
          then max 0 (cursor + sp - opts.chunkOverlap) else cursor + sp) := by
  simp only [chunkStep] at hstep
  rw [jsSliceFrom_eq_drop text hcur0] at hstep
  set rem := text.drop cursor.toNat with hremdef
  have hremlen : rem.length = text.length - cursor.toNat := by
    rw [hremdef]
    exact List.length_drop _ _
  generalize hmcbE : (if chunkIdx = 0 then avB else limits.maxBytes) = mcb at hstep
  generalize hmccE : (if chunkIdx = 0 then avC else limits.maxChars) = mcc at hstep
  generalize hcibE : (if chunkIdx = 0 then imgB else (0 : Int)) = cib at hstep
  have h1mcb : 1 ≤ mcb := by
    rw [← hmcbE]
    split <;> omega
  have h0mcc : 0 ≤ mcc := by
    rw [← hmccE]
    have hfdivA : 0 ≤ avB.fdiv 2 := Int.fdiv_nonneg (by omega) (by norm_num)
    split <;> omega
  have h0cib : 0 ≤ cib := by
    rw [← hcibE]
    split <;> omega
  have hfdivm : 0 ≤ mcb.fdiv 2 := Int.fdiv_nonneg (by omega) (by norm_num)
  have htarget : 0 ≤ mcc ⊓ mcb.fdiv 2 := le_min h0mcc hfdivm
  obtain ⟨hsp0l, hsp0r⟩ := boundarySplit_bounds opts rem htarget
  obtain ⟨hsp1l, hsp1r⟩ := byteCorrect_bounds rem cib mcb hsp0l hsp0r
  obtain ⟨hsp2l, hsp2r⟩ := tokenCorrect_bounds limits rem hT hsp1l hsp1r
  have htok := tokenCorrect_tokens limits rem hT hsp1l
  split at hstep
  · exact Except.noConfusion hstep
  split at hstep
  · exact Except.noConfusion hstep
  split at hstep
  · exact Except.noConfusion hstep
  split at hstep
  · exact Except.noConfusion hstep
  next hz =>
  simp only [Except.ok.injEq, Prod.mk.injEq] at hstep
  obtain ⟨hch, hsp, hc2⟩ := hstep
  subst hsp
  subst hc2
  refine ⟨by omega, by omega, ?_, ?_, rfl⟩
  · rw [← hch]
    exact jsSlice_zero_take rem hsp2l
  · rw [← hch]
    exact htok

theorem tokenCorrect_neg (limits : Limits) (rem : List Nat) (sp1 : Int)
    (hMT : limits.maxTokens < 0) :
    tokenCorrect limits rem sp1 ≤ limits.maxTokens * 4 := by
  unfold tokenCorrect
  dsimp only
  split
  · omega
  · next h => exact absurd ⟨by omega, by omega⟩ h

/-- With a negative `maxTokens` the token correction always produces a
negative split point, so a successful iteration moves the cursor to a
non-positive position. -/
theorem chunkStep_neg {strict : Bool} {text : List Nat} {images : List NImage}
    {limits : Limits} {opts : ChunkOptions}
    {imgB avB avC cursor : Int} {chunkIdx : Nat}
    {ch : Chunk} {sp c2 : Int}
    (hMT : limits.maxTokens < 0) (hcur : cursor ≤ 0)
    (hstep : chunkStep strict text images limits opts imgB avB avC cursor chunkIdx
      = .ok (ch, sp, c2)) :
    c2 ≤ 0 := by
  simp only [chunkStep] at hstep
  generalize hmcbE : (if chunkIdx = 0 then avB else limits.maxBytes) = mcb at hstep
  generalize hmccE : (if chunkIdx = 0 then avC else limits.maxChars) = mcc at hstep
  generalize hcibE : (if chunkIdx = 0 then imgB else (0 : Int)) = cib at hstep
  have hneg := tokenCorrect_neg limits (jsSliceFrom text cursor)
    (byteCorrect (jsSliceFrom text cursor)
      (boundarySplit opts (jsSliceFrom text cursor) (mcc ⊓ mcb.fdiv 2)) cib mcb) hMT
  split at hstep
  · exact Except.noConfusion hstep
  split at hstep
  · exact Except.noConfusion hstep
  split at hstep
  · exact Except.noConfusion hstep
  split at hstep
  · exact Except.noConfusion hstep
  simp only [Except.ok.injEq, Prod.mk.injEq] at hstep
  obtain ⟨hch, hsp, hc2⟩ := hstep
  subst hc2
  split
  · omega
  · omega

/-- With a negative `maxTokens` and a non-empty text, the loop never
returns a chunk list: every iteration keeps the cursor non-positive, so the
exit condition is never reached. -/
theorem chunkLoop_none_of_neg {strict : Bool} {text : List Nat}
    {images : List NImage} {limits : Limits} {opts : ChunkOptions}
    {imgB avB avC : Int}
    (hMT : limits.maxTokens < 0) (hlen : 0 < text.length) :
    ∀ (fuel : Nat) (cursor : Int) (chunkIdx : Nat) (acc cs : List Chunk),
      cursor ≤ 0 →
      chunkLoop strict text images limits opts imgB avB avC fuel cursor chunkIdx acc
        ≠ some (.ok cs) := by
  intro fuel
  induction fuel with
  | zero => intro cursor chunkIdx acc cs hcur hrun; simp [chunkLoop] at hrun
  | succ n ih =>
    intro cursor chunkIdx acc cs hcur hrun
    rw [chunkLoop, if_pos (by omega : cursor < (text.length : Int))] at hrun
    cases hs : chunkStep strict text images limits opts imgB avB avC cursor chunkIdx with
    | error e => rw [hs] at hrun; simp at hrun
    | ok t =>
      obtain ⟨c, sp, c2⟩ := t
      rw [hs] at hrun
      exact ih c2 (chunkIdx + 1) (acc ++ [c]) cs (chunkStep_neg hMT hcur hs) hrun

/-- Loop invariant for lossless reconstruction with `chunkOverlap = 0`:
if the texts accumulated so far followed by the not-yet-consumed suffix give
back the input, a successful run reconstructs the whole input. -/
theorem chunkLoop_concat {strict : Bool} {text : List Nat}
    {images : List NImage} {limits : Limits} {opts : ChunkOptions}
    {imgB avB avC : Int}
    (himg0 : 0 ≤ imgB)
    (havB : avB = limits.maxBytes - imgB)
    (havC : avC = min limits.maxChars (Int.fdiv avB 2))
    (hB : 1 + imgB ≤ limits.maxBytes)
    (hC : 1 ≤ limits.maxChars)
    (hT : 0 ≤ limits.maxTokens)
    (hov : opts.chunkOverlap = 0) :
    ∀ (fuel : Nat) (cursor : Int) (chunkIdx : Nat) (acc cs : List Chunk),
      0 ≤ cursor → cursor ≤ (text.length : Int) →
      concatTexts acc ++ text.drop cursor.toNat = text →
      chunkLoop strict text images limits opts imgB avB avC fuel cursor chunkIdx acc
        = some (.ok cs) →
      concatTexts cs = text := by
  intro fuel
  induction fuel with
  | zero => intro cursor chunkIdx acc cs _ _ _ hrun; simp [chunkLoop] at hrun
  | succ n ih =>
    intro cursor chunkIdx acc cs hcur0 hcurle hinv hrun
    rw [chunkLoop] at hrun
    by_cases hlt : cursor < (text.length : Int)
    · rw [if_pos hlt] at hrun
      cases hs : chunkStep strict text images limits opts imgB avB avC cursor chunkIdx with
      | error e => rw [hs] at hrun; simp at hrun
      | ok t =>
        obtain ⟨c, sp, c2⟩ := t
        rw [hs] at hrun
        obtain ⟨hpos, hle, htext, _, hc2⟩ :=
          chunkStep_ok himg0 havB havC hB hC hT hcur0 hlt hs
        rw [hov] at hc2
        simp only [gt_iff_lt, lt_self_iff_false, false_and, if_false] at hc2
        have hc2n : c2.toNat = cursor.toNat + sp.toNat := by omega
        refine ih c2 (chunkIdx + 1) (acc ++ [c]) cs (by omega) (by omega) ?_ hrun
        rw [concatTexts_append, htext, hc2n, ← List.drop_drop, List.append_assoc,
          List.take_append_drop]
        exact hinv
    · rw [if_neg hlt] at hrun
      simp only [Option.some.injEq, Except.ok.injEq] at hrun
      subst hrun
      have : cursor.toNat = text.length := by omega
      rw [this, List.drop_length, List.append_nil] at hinv
      exact hinv

/-- Loop invariant for the per-chunk token bound: every chunk a successful
run returns satisfies `estimateTokens(text) ≤ maxTokens`. -/
theorem chunkLoop_tokens {strict : Bool} {text : List Nat}
    {images : List NImage} {limits : Limits} {opts : ChunkOptions}
    {imgB avB avC : Int}
    (himg0 : 0 ≤ imgB)
    (havB : avB = limits.maxBytes - imgB)
    (havC : avC = min limits.maxChars (Int.fdiv avB 2))
    (hB : 1 + imgB ≤ limits.maxBytes)
    (hC : 1 ≤ limits.maxChars)
    (hT : 0 ≤ limits.maxTokens) :
    ∀ (fuel : Nat) (cursor : Int) (chunkIdx : Nat) (acc cs : List Chunk),
      0 ≤ cursor →
      (∀ c ∈ acc, (estimateTokens c.text : Int) ≤ limits.maxTokens) →
      chunkLoop strict text images limits opts imgB avB avC fuel cursor chunkIdx acc
        = some (.ok cs) →
      ∀ c ∈ cs, (estimateTokens c.text : Int) ≤ limits.maxTokens := by
  intro fuel
  induction fuel with
  | zero => intro cursor chunkIdx acc cs _ _ hrun; simp [chunkLoop] at hrun
  | succ n ih =>
    intro cursor chunkIdx acc cs hcur0 hacc hrun
    rw [chunkLoop] at hrun
    by_cases hlt : cursor < (text.length : Int)
    · rw [if_pos hlt] at hrun
      cases hs : chunkStep strict text images limits opts imgB avB avC cursor chunkIdx with
      | error e => rw [hs] at hrun; simp at hrun
      | ok t =>
        obtain ⟨c, sp, c2⟩ := t
        rw [hs] at hrun
        obtain ⟨hpos, hle, htext, htok, hc2⟩ :=
          chunkStep_ok himg0 havB havC hB hC hT hcur0 hlt hs
        have hc20 : 0 ≤ c2 := by rw [hc2]; split <;> omega
        refine ih c2 (chunkIdx + 1) (acc ++ [c]) cs hc20 ?_ hrun
        intro d hd
        rcases List.mem_append.mp hd with hd | hd
        · exact hacc d hd
        · rw [List.mem_singleton.mp hd]
          exact htok
    · rw [if_neg hlt] at hrun
      simp only [Option.some.injEq, Except.ok.injEq] at hrun
      subst hrun
      exact hacc

/-! ### Claims -/

/-- C1: for every non-empty input text, limits, and options with
`chunkOverlap = 0`, if `chunkInput` (either variant) returns a chunk
sequence, concatenating the chunk texts in index order equals the original
input text exactly. -/
theorem claim_c1_lossless_reconstruction (strict : Bool) (fuel : Nat)
    (text : List Nat) (images : List NImage) (limits : Limits)
    (opts : ChunkOptions) (cs : List Chunk)
    (_hne : text ≠ [])
    (hov : opts.chunkOverlap = 0)
    (hrun : chunkInput strict fuel text images limits opts = some (.ok cs)) :
    concatTexts cs = text := by
  obtain ⟨hlen, hB, hC, hloop⟩ := chunkInput_ok_elim hrun
  rcases lt_or_le limits.maxTokens 0 with hMT | hMT
  · exact absurd hloop
      (chunkLoop_none_of_neg hMT (by omega) fuel 0 0 [] cs le_rfl)
  · exact chunkLoop_concat (by positivity) rfl rfl hB hC hMT hov fuel 0 0 [] cs
      le_rfl (by positivity) (by simp [concatTexts]) hloop

/-- Witness for C1 at a concrete input: `"ab"` with generous limits comes
back as a single chunk whose text is the input. -/
theorem claim_c1_lossless_reconstruction_witness :
    concatTexts [⟨[97, 98], [], 0⟩] = [97, 98] :=
  claim_c1_lossless_reconstruction false 3 [97, 98] [] ⟨10, 10, 10, 10, 10⟩
    ⟨0, true⟩ [⟨[97, 98], [], 0⟩] (by decide) rfl rfl

/-- C10 (implicit): every chunk of a successful `chunkInput` run (either
variant) satisfies `estimateTokens(text) ≤ limits.maxTokens`, the guarantee
of the token-correction step. -/
theorem claim_c10_per_chunk_token_bound (strict : Bool) (fuel : Nat)
    (text : List Nat) (images : List NImage) (limits : Limits)
    (opts : ChunkOptions) (cs : List Chunk) (c : Chunk)
    (hrun : chunkInput strict fuel text images limits opts = some (.ok cs))
    (hc : c ∈ cs) :
    (estimateTokens c.text : Int) ≤ limits.maxTokens := by
  obtain ⟨hlen, hB, hC, hloop⟩ := chunkInput_ok_elim hrun
  rcases lt_or_le limits.maxTokens 0 with hMT | hMT
  · exact absurd hloop
      (chunkLoop_none_of_neg hMT (by omega) fuel 0 0 [] cs le_rfl)
  · exact chunkLoop_tokens (by positivity) rfl rfl hB hC hMT fuel 0 0 [] cs
      le_rfl (by simp) hloop c hc

/-- Witness for C10 at a concrete input. -/
theorem claim_c10_per_chunk_token_bound_witness :
    (estimateTokens ([99, 100] : List Nat) : Int) ≤ 10 :=
  claim_c10_per_chunk_token_bound false 3 [99, 100] [] ⟨10, 10, 10, 10, 10⟩
    ⟨0, true⟩ [⟨[99, 100], [], 0⟩] ⟨[99, 100], [], 0⟩ rfl (by simp)

/-- On the C3 failing input (ten `'a'`s, `maxChars = 5`, `chunkOverlap = 5`)
every iteration of either variant consumes 5 characters and then steps the
cursor back to 0, so the loop state repeats forever. -/
theorem c3_step_fixpoint (strict : Bool) (chunkIdx : Nat) :
    chunkStep strict (List.replicate 10 97) [] ⟨1000, 5, 1000, 10, 10⟩
      ⟨5, true⟩ 0 1000 5 0 chunkIdx
      = .ok (⟨List.replicate 5 97, [], chunkIdx⟩, 5, 0) := by
  cases chunkIdx with
  | zero => cases strict <;> rfl
  | succ k =>
    simp only [chunkStep, if_neg (show ¬(k + 1 = 0) by omega)]
    cases strict <;> rfl

theorem c3_loop_diverges (strict : Bool) :
    ∀ (fuel : Nat) (chunkIdx : Nat) (acc : List Chunk),
      chunkLoop strict (List.replicate 10 97) [] ⟨1000, 5, 1000, 10, 10⟩
        ⟨5, true⟩ 0 1000 5 fuel 0 chunkIdx acc = none := by
  intro fuel
  induction fuel with
  | zero => intro chunkIdx acc; rfl
  | succ n ih =>
    intro chunkIdx acc
    rw [chunkLoop, if_pos (by decide), c3_step_fixpoint strict chunkIdx]
    exact ih (chunkIdx + 1) (acc ++ [⟨List.replicate 5 97, [], chunkIdx⟩])

/-- C3 (refuting the claim on the code): on the input `"aaaaaaaaaa"` with
limits `{maxTokens: 1000, maxChars: 5, maxBytes: 1000}` and options
`{chunkOverlap: 5, respectWordBoundaries: true}`, `chunkInput` (either
variant) never terminates: every iteration consumes 5 characters and the
overlap step pulls the cursor back to 0, so for every fuel bound the run is
still unfinished.  The zero-progress guard (`splitPoint === 0`) never fires
because `splitPoint = 5 ≠ 0`. -/
theorem claim_c3_nontermination (strict : Bool) (fuel : Nat) :
    chunkInput strict fuel (List.replicate 10 97) [] ⟨1000, 5, 1000, 10, 10⟩
      ⟨5, true⟩ = none := by
  have h := c3_loop_diverges strict fuel 0 []
  simpa [chunkInput] using h

/-- C2 (refuting the claim on the CJS code): on `"abcde fgh"` with
`maxChars = 5`, the word-boundary scan returns `targetChars + 1 = 6`
(it splits *after* the whitespace at index 5), and `src/chunker.cjs` emits
the 6-character chunk `"abcde "`, violating `length(text) ≤ maxChars`.
The ESM variant's single-unit guard instead turns the same input into a
`LimitExceededError`, so no variant returns a compliant chunking here. -/
theorem claim_c2_cjs_overlong_chunk :
    chunkInput false 5 [97, 98, 99, 100, 101, 32, 102, 103, 104] []
      ⟨100, 5, 100, 10, 10⟩ ⟨0, true⟩
      = some (.ok [⟨[97, 98, 99, 100, 101, 32], [], 0⟩, ⟨[102, 103, 104], [], 1⟩]) ∧
    (⟨100, 5, 100, 10, 10⟩ : Limits).maxChars <
      (([97, 98, 99, 100, 101, 32] : List Nat).length : Int) ∧
    chunkInput true 5 [97, 98, 99, 100, 101, 32, 102, 103, 104] []
      ⟨100, 5, 100, 10, 10⟩ ⟨0, true⟩
      = some (.error (.limit .maxChars 6 5)) :=
  ⟨rfl, by decide, rfl⟩

/-- C5 (refuting the claim on the ESM code): on six copies of the 3-byte
character U+4E2D with `maxBytes = 10`, the candidate chunk (5 characters,
15 bytes) exceeds the byte budget.  `src/chunker.cjs` binary-searches and
truncates to 3 characters (9 bytes) as the claim states, but
`src/chunker.js` throws `LimitExceededError` from its single-unit guard
before the binary search can run — the behaviour the repository's own
"byte overflow edge case" test rejects. -/
theorem claim_c5_esm_fails_instead_of_truncating :
    chunkInput true 5 (List.replicate 6 0x4E2D) [] ⟨100, 100, 10, 10, 10⟩
      ⟨0, true⟩ = some (.error (.limit .maxBytes 15 10)) ∧
    chunkInput false 5 (List.replicate 6 0x4E2D) [] ⟨100, 100, 10, 10, 10⟩
      ⟨0, true⟩ = some (.ok
        [⟨List.replicate 3 0x4E2D, [], 0⟩, ⟨List.replicate 3 0x4E2D, [], 1⟩]) :=
  ⟨rfl, rfl⟩

/-- C6 counterexample: a negative `Limits` field (`maxImages = -1`,
`imageByteLimit = -1`) does not make `chunkInput` fail with
`InvalidInputError`; the call succeeds normally, because the source never
validates the limits record. -/
theorem claim_c6_counterexample :
    chunkInput false 3 [65] [] ⟨10, 10, 10, -1, -1⟩ ⟨0, true⟩
      = some (.ok [⟨[65], [], 0⟩]) ∧
    (⟨10, 10, 10, -1, -1⟩ : Limits).maxImages < 0 :=
  ⟨rfl, by decide⟩

/-- C6 as amended: `chunkInput` (either variant) fails with
`InvalidInputError` exactly when the text is empty (a non-string input is
not representable in the typed embedding); `Limits` fields, negative ones
included, are never validated and never produce `InvalidInputError`. -/
theorem claim_c6_invalid_input_iff_empty (strict : Bool) (fuel : Nat)
    (text : List Nat) (images : List NImage) (limits : Limits)
    (opts : ChunkOptions) :
    chunkInput strict fuel text images limits opts
      = some (.error .invalidInput) ↔ text = [] := by
  constructor
  · intro h
    by_contra hne
    simp only [chunkInput] at h
    rw [if_neg (by simpa using hne)] at h
    split at h
    · simp at h
    split at h
    · simp at h
    exact chunkLoop_not_invalid fuel 0 0 [] h
  · intro h
    subst h
    rfl

/-- C7: `checkFits` evaluates the dimensions in the fixed priority order
bytes, then characters, then estimated tokens, and returns the first
violated dimension with its `{actual, allowed}` pair; in particular, a byte
violation is reported even when the character and token checks would pass,
and only when all three pass does it report a fit. -/
theorem claim_c7_fit_priority (text : List Nat) (images : List NImage)
    (limits : Limits) :
    ((getTextByteSize text : Int) + (getImagesByteSize images : Int) >
        limits.maxBytes →
      checkFits text images limits = .notFits .maxBytes
        ((getTextByteSize text : Int) + (getImagesByteSize images : Int))
        limits.maxBytes) ∧
    ((getTextByteSize text : Int) + (getImagesByteSize images : Int) ≤
        limits.maxBytes →
      (text.length : Int) > limits.maxChars →
      checkFits text images limits = .notFits .maxChars text.length
        limits.maxChars) ∧
    ((getTextByteSize text : Int) + (getImagesByteSize images : Int) ≤
        limits.maxBytes →
      (text.length : Int) ≤ limits.maxChars →
      (estimateTokens text : Int) > limits.maxTokens →
      checkFits text images limits = .notFits .maxTokens (estimateTokens text)
        limits.maxTokens) ∧
    ((getTextByteSize text : Int) + (getImagesByteSize images : Int) ≤
        limits.maxBytes →
      (text.length : Int) ≤ limits.maxChars →
      (estimateTokens text : Int) ≤ limits.maxTokens →
      checkFits text images limits = .fits) := by
  refine ⟨fun h1 => ?_, fun h1 h2 => ?_, fun h1 h2 h3 => ?_, fun h1 h2 h3 => ?_⟩ <;>
    unfold checkFits <;> dsimp only
  · rw [if_pos h1]
  · rw [if_neg (by omega), if_pos h2]
  · rw [if_neg (by omega), if_neg (by omega), if_pos h3]
  · rw [if_neg (by omega), if_neg (by omega), if_neg (by omega)]

/-- Witness for C7: three ASCII bytes against `maxBytes = 2` report the
byte dimension first. -/
theorem claim_c7_fit_priority_witness :
    checkFits [97, 98, 99] [] ⟨10, 10, 2, 10, 10⟩ = .notFits .maxBytes 3 2 :=
  (claim_c7_fit_priority [97, 98, 99] [] ⟨10, 10, 2, 10, 10⟩).1 (by decide)

/-- C8 counterexample: the ESM single-unit guard mixes dimensions.  On five
U+03B1 (2 bytes each), a space, and three more Greek letters with
`maxChars = 5`, the guard reports dimension `maxChars` with
`actual = max(charCount, byteCount) = 11` — a byte count — although the
whole input is only 9 characters long, so 11 cannot be a character count of
any part of it. -/
theorem claim_c8_counterexample :
    chunkInput true 5 [0x3B1, 0x3B1, 0x3B1, 0x3B1, 0x3B1, 0x20, 0x3B2, 0x3B3, 0x3B4]
      [] ⟨100, 5, 100, 10, 10⟩ ⟨0, true⟩
      = some (.error (.limit .maxChars 11 5)) ∧
    (([0x3B1, 0x3B1, 0x3B1, 0x3B1, 0x3B1, 0x20, 0x3B2, 0x3B3, 0x3B4] :
        List Nat).length : Int) < 11 :=
  ⟨rfl, by decide⟩

/-- C8 as amended: every failure reported by the fit check carries the
violated dimension together with `actual` and `allowed` measured in that
same dimension (text bytes + image bytes against `maxBytes`, character
count against `maxChars`, estimated tokens against `maxTokens`); the ESM
partitioner's single-unit guard is the exception, reporting
`actual = max(charCount, byteCount)` and `allowed = min(maxChars, byteBudget)`. -/
theorem claim_c8_fit_check_fields (text : List Nat) (images : List NImage)
    (limits : Limits) (r : Dim) (a al : Int)
    (h : checkFits text images limits = .notFits r a al) :
    (r = .maxBytes → a = (getTextByteSize text : Int) +
      (getImagesByteSize images : Int) ∧ al = limits.maxBytes) ∧
    (r = .maxChars → a = (text.length : Int) ∧ al = limits.maxChars) ∧
    (r = .maxTokens → a = (estimateTokens text : Int) ∧ al = limits.maxTokens) := by
  unfold checkFits at h
  dsimp only at h
  split at h
  · simp only [FitResult.notFits.injEq] at h
    obtain ⟨hr, ha, hal⟩ := h
    subst hr; subst ha; subst hal
    exact ⟨fun _ => ⟨rfl, rfl⟩, fun hx => Dim.noConfusion hx,
      fun hx => Dim.noConfusion hx⟩
  split at h
  · simp only [FitResult.notFits.injEq] at h
    obtain ⟨hr, ha, hal⟩ := h
    subst hr; subst ha; subst hal
    exact ⟨fun hx => Dim.noConfusion hx, fun _ => ⟨rfl, rfl⟩,
      fun hx => Dim.noConfusion hx⟩
  split at h
  · simp only [FitResult.notFits.injEq] at h
    obtain ⟨hr, ha, hal⟩ := h
    subst hr; subst ha; subst hal
    exact ⟨fun hx => Dim.noConfusion hx, fun hx => Dim.noConfusion hx,
      fun _ => ⟨rfl, rfl⟩⟩
  · exact FitResult.noConfusion h

/-- Witness for the amended C8: a character-count violation carries the
character count and the character limit. -/
theorem claim_c8_fit_check_fields_witness :
    (2 : Int) = (([104, 105] : List Nat).length : Int) ∧
    (1 : Int) = (⟨10, 1, 10, 10, 10⟩ : Limits).maxChars :=
  (claim_c8_fit_check_fields [104, 105] [] ⟨10, 1, 10, 10, 10⟩ .maxChars 2 1
    rfl).2.1 rfl

theorem startsWithLit_nil (s : List Nat) : startsWithLit s [] = true := by
  cases s <;> rfl

theorem startsWithLit_append (lit rest : List Nat) :
    startsWithLit (lit ++ rest) lit = true := by
  induction lit with
  | nil => exact startsWithLit_nil rest
  | cons a lit ih => simp [startsWithLit, ih]

theorem jsIndexOf_append (pre post : List Nat) {c : Nat}
    (hpre : ∀ x ∈ pre, x ≠ c) :
    jsIndexOf (pre ++ c :: post) c = some pre.length := by
  induction pre with
  | nil => simp [jsIndexOf]
  | cons a pre ih =>
    rw [List.cons_append, jsIndexOf]
    rw [if_neg (hpre a (List.mem_cons_self a pre))]
    rw [ih fun x hx => hpre x (List.mem_cons_of_mem a hx)]
    rfl

theorem takeWhile_append_stop {p : Nat → Bool} (xs : List Nat) (y : Nat)
    (ys : List Nat) (hxs : ∀ x ∈ xs, p x = true) (hy : p y = false) :
    (xs ++ y :: ys).takeWhile p = xs := by
  induction xs with
  | nil => simp [List.takeWhile_cons, hy]
  | cons a xs ih =>
    rw [List.cons_append, List.takeWhile_cons,
      hxs a (List.mem_cons_self a xs),
      ih fun x hx => hxs x (List.mem_cons_of_mem a hx)]
    simp

theorem mimeCapture_header (subtype : List Nat)
    (hne : subtype ≠ [])
    (hsub : ∀ c ∈ subtype, c ≠ 59) :
    mimeCapture (dataUrlLit ++ subtype ++ semiBase64) = some subtype := by
  have hsw : startsWithLit (dataUrlLit ++ subtype ++ semiBase64) dataUrlLit
      = true := startsWithLit_append dataUrlLit (subtype ++ semiBase64)
  have hdrop : (dataUrlLit ++ subtype ++ semiBase64).drop 11
      = subtype ++ semiBase64 := by
    have h11 : dataUrlLit.length = 11 := rfl
    rw [← h11]
    exact List.drop_left dataUrlLit (subtype ++ semiBase64)
  have htw : (subtype ++ semiBase64).takeWhile (· ≠ 59) = subtype := by
    have : (subtype ++ semiBase64) = subtype ++ 59 :: [98, 97, 115, 101, 54, 52] := rfl
    rw [this]
    refine takeWhile_append_stop subtype 59 _ (fun x hx => ?_) (by decide)
    simpa using hsub x hx
  rw [show dataUrlLit ++ subtype ++ semiBase64
      = 100 :: ([97, 116, 97, 58, 105, 109, 97, 103, 101, 47] ++ (subtype ++ semiBase64))
      from rfl]
  rw [mimeCapture]
  rw [show (100 : Nat) :: ([97, 116, 97, 58, 105, 109, 97, 103, 101, 47] ++ (subtype ++ semiBase64))
      = dataUrlLit ++ subtype ++ semiBase64 from rfl]
  rw [if_pos hsw, hdrop, htw]
  rw [if_neg (by simpa [List.isEmpty_iff] using hne)]

/-- C9: `normalizeImage` from `src/image.cjs` on a well-formed data URL
`data:image/<subtype>;base64,<payload>` decodes exactly the payload as
base64 bytes and sets the mime type `image/<subtype>` parsed from the URL
header. -/
theorem claim_c9_data_url_normalization (subtype payload : List Nat)
    (hne : subtype ≠ [])
    (hsub : ∀ c ∈ subtype, c ≠ 59 ∧ c ≠ 44) :
    normalizeImage (.str (dataUrlLit ++ subtype ++ semiBase64 ++ 44 :: payload))
      = some ⟨b64Decode payload, imageSlash ++ subtype,
          (b64Decode payload).length⟩ := by
  have hsw : startsWithLit
      (dataUrlLit ++ subtype ++ semiBase64 ++ 44 :: payload) dataUrlLit
      = true := startsWithLit_append dataUrlLit _
  have hidx : jsIndexOf (dataUrlLit ++ subtype ++ semiBase64 ++ 44 :: payload) 44
      = some (dataUrlLit ++ subtype ++ semiBase64).length := by
    refine jsIndexOf_append _ _ (fun x hx => ?_)
    rcases List.mem_append.mp hx with hx | hx
    · rcases List.mem_append.mp hx with hx | hx
      · simp only [dataUrlLit, List.mem_cons, List.not_mem_nil, or_false] at hx
        omega
      · exact (hsub x hx).2
    · simp only [semiBase64, List.mem_cons, List.not_mem_nil, or_false] at hx
      omega
  have htake : (dataUrlLit ++ subtype ++ semiBase64 ++ 44 :: payload).take
      (dataUrlLit ++ subtype ++ semiBase64).length
      = dataUrlLit ++ subtype ++ semiBase64 := List.take_left _ _
  have hdrop : (dataUrlLit ++ subtype ++ semiBase64 ++ 44 :: payload).drop
      ((dataUrlLit ++ subtype ++ semiBase64).length + 1)
      = payload := by
    rw [← List.drop_drop, List.drop_left]
    rfl
  have hcap := mimeCapture_header subtype hne (fun c hc => (hsub c hc).1)
  simp only [normalizeImage]
  rw [if_pos hsw]
  rw [hidx]
  simp only [htake, hdrop, hcap]

/-- Witness for C9: `data:image/jpeg;base64,QUJD` decodes to the bytes of
`"ABC"` with mime type `image/jpeg`. -/
theorem claim_c9_data_url_normalization_witness :
    normalizeImage (.str (dataUrlLit ++ [106, 112, 101, 103] ++ semiBase64 ++
      44 :: [81, 85, 74, 68]))
      = some ⟨[65, 66, 67], imageSlash ++ [106, 112, 101, 103], 3⟩ :=
  claim_c9_data_url_normalization [106, 112, 101, 103] [81, 85, 74, 68]
    (by decide) (by decide)

/-- C9 counterexample: the ESM `normalizeImage` (embedded with
`src/chunker.js`) does not parse data URLs.  On
`data:image/jpeg;base64,QUJD` it keeps the default mime type `image/png`
instead of the `image/jpeg` announced by the URL (which the CJS variant
does parse). -/
theorem claim_c9_counterexample :
    (normalizeImageEsm (.str [100, 97, 116, 97, 58, 105, 109, 97, 103, 101, 47,
        106, 112, 101, 103, 59, 98, 97, 115, 101, 54, 52, 44, 81, 85, 74, 68])).map
      NormImage.mime = some pngMime ∧
    (normalizeImage (.str [100, 97, 116, 97, 58, 105, 109, 97, 103, 101, 47,
        106, 112, 101, 103, 59, 98, 97, 115, 101, 54, 52, 44, 81, 85, 74, 68])).map
      NormImage.mime = some (imageSlash ++ [106, 112, 101, 103]) ∧
    pngMime ≠ imageSlash ++ [106, 112, 101, 103] :=
  ⟨rfl, rfl, by decide⟩

end TokenChunker
